import Mathlib

/-!
Verification of the hierarchical selection engine of
src/components/ui/tree-selector.tsx (react-tree-selector).

The TypeScript helpers are shallowly embedded: a JS Set of strings becomes
a Finset String, the JS Map from ids to nodes becomes a function
String → Option TreeNode (Map.set overwrites, modelled by function update),
and the JSX recursion over children becomes mutual recursion on the rose
tree. The explicit while-loop with an array used as a stack (pop takes the
last element, push appends the children in order) is modelled by a
head-stack loop on a reversed list, which pops the same nodes in the same
order.
-/

/-- The TreeNode type of tree-selector.tsx. The optional TS field
children defaults to the empty list. -/
structure TreeNode where
  id : String
  label : String
  children : List TreeNode

mutual

/-- Decidable equality of nodes, written by hand because deriving does not
handle the nested list field. -/
def treeNodeDecEq : (a b : TreeNode) → Decidable (a = b)
  | ⟨i1, l1, cs1⟩, ⟨i2, l2, cs2⟩ =>
    if h1 : i1 = i2 then
      if h2 : l1 = l2 then
        match treeNodeListDecEq cs1 cs2 with
        | Decidable.isTrue h3 => Decidable.isTrue (by rw [h1, h2, h3])
        | Decidable.isFalse h3 => Decidable.isFalse (fun he => h3 (by injection he))
      else Decidable.isFalse (fun he => h2 (by injection he))
    else Decidable.isFalse (fun he => h1 (by injection he))

/-- Decidable equality of node lists. -/
def treeNodeListDecEq : (a b : List TreeNode) → Decidable (a = b)
  | [], [] => Decidable.isTrue rfl
  | [], _ :: _ => Decidable.isFalse (by simp)
  | _ :: _, [] => Decidable.isFalse (by simp)
  | a :: as, b :: bs =>
    match treeNodeDecEq a b, treeNodeListDecEq as bs with
    | Decidable.isTrue h1, Decidable.isTrue h2 => Decidable.isTrue (by rw [h1, h2])
    | Decidable.isFalse h1, _ => Decidable.isFalse (fun he => h1 (by injection he))
    | Decidable.isTrue _, Decidable.isFalse h2 =>
      Decidable.isFalse (fun he => h2 (by injection he))

end

instance : DecidableEq TreeNode := treeNodeDecEq

mutual

/-- getAllDescendantIds of tree-selector.tsx: every id in the subtree below
the node, the node itself excluded, in pre-order. -/
def getAllDescendantIds : TreeNode → List String
  | ⟨_, _, cs⟩ => getAllDescendantIdsL cs

/-- The for-loop of getAllDescendantIds over a child list: for each child,
push its id and concatenate the recursive result. -/
def getAllDescendantIdsL : List TreeNode → List String
  | [] => []
  | c :: cs => c.id :: (getAllDescendantIds c ++ getAllDescendantIdsL cs)

end

mutual

/-- hasSelectedDescendant of tree-selector.tsx: whether some descendant is
selected without an intervening selected ancestor, threading the
ancestorSelected accumulator downward. -/
def hasSelectedDescendant (n : TreeNode) (selectedIds : Finset String)
    (ancestorSelected : Bool) : Bool :=
  match n with
  | ⟨_, _, cs⟩ => hasSelectedDescendantL cs selectedIds ancestorSelected

/-- The for-loop of hasSelectedDescendant over a child list. -/
def hasSelectedDescendantL : List TreeNode → Finset String → Bool → Bool
  | [], _, _ => false
  | c :: cs, selectedIds, anc =>
    (decide (c.id ∈ selectedIds) && !anc)
      || hasSelectedDescendant c selectedIds (anc || decide (c.id ∈ selectedIds))
      || hasSelectedDescendantL cs selectedIds anc

end

mutual

/-- searchForAncestors, the inner DFS of findAncestorIds in
tree-selector.tsx: returns the path of ids strictly above the first node
matching targetId, or none when the subtree does not contain it. -/
def searchForAncestors (n : TreeNode) (targetId : String)
    (currentPath : List String) : Option (List String) :=
  match n with
  | ⟨i, _, cs⟩ =>
    if i = targetId then some currentPath
    else searchForAncestorsL cs targetId (currentPath ++ [i])

/-- The for-loop of searchForAncestors over a child list: the first child
subtree containing the target wins. -/
def searchForAncestorsL : List TreeNode → String → List String → Option (List String)
  | [], _, _ => none
  | c :: cs, t, p =>
    match searchForAncestors c t p with
    | some r => some r
    | none => searchForAncestorsL cs t p

end

/-- The per-target loop of findAncestorIds over the root nodes: the first
root whose subtree contains the target yields the ancestor path, later
roots are not consulted; an unmatched target contributes nothing. -/
def ancestorPathOf : List TreeNode → String → List String
  | [], _ => []
  | r :: rs, t =>
    match searchForAncestors r t [] with
    | some p => p
    | none => ancestorPathOf rs t

/-- findAncestorIds of tree-selector.tsx: union over all targets of the
ancestor path found for that target. -/
def findAncestorIds (targetIds : List String) (nodes : List TreeNode) : Finset String :=
  targetIds.foldl (fun acc t => acc ∪ (ancestorPathOf nodes t).toFinset) ∅

mutual

/-- Size of a node, the measure for the stack loop below. -/
def sizeT : TreeNode → Nat
  | ⟨_, _, cs⟩ => 1 + sizeForestT cs

/-- Total size of a forest. -/
def sizeForestT : List TreeNode → Nat
  | [] => 0
  | c :: cs => sizeT c + sizeForestT cs

end

/-- One nodesMap.set step of getSelectedIdsFromData: a later set for the
same id overwrites an earlier one, as for a JS Map. -/
def mapSet (m : String → Option TreeNode) (n : TreeNode) : String → Option TreeNode :=
  fun k => if k = n.id then some n else m k

/-- The while-loop of getSelectedIdsFromData building nodesMap: pop a node
from the stack head, record it in the map, push its children reversed (the
JS code pops from the array end and appends children, which yields the
same pop order). -/
def buildMapLoop : List TreeNode → (String → Option TreeNode) → (String → Option TreeNode)
  | [], m => m
  | n :: st, m => buildMapLoop (n.children.reverse ++ st) (mapSet m n)
termination_by st _ => sizeForestT st
decreasing_by
  cases n with
  | mk i l cs =>
    have happ : ∀ (a b : List TreeNode), sizeForestT (a ++ b) = sizeForestT a + sizeForestT b := by
      intro a b
      induction a with
      | nil => simp [sizeForestT]
      | cons x xs ih => simp [sizeForestT, ih]; omega
    have hrev : ∀ (a : List TreeNode), sizeForestT a.reverse = sizeForestT a := by
      intro a
      induction a with
      | nil => rfl
      | cons x xs ih => simp [List.reverse_cons, happ, sizeForestT, ih]; omega
    simp [happ, hrev, sizeForestT, sizeT]

/-- nodesMap as built by getSelectedIdsFromData from the root list: the
initial stack is a copy of data, popped from the end. -/
def buildNodesMap (data : List TreeNode) : String → Option TreeNode :=
  buildMapLoop data.reverse (fun _ => none)

/-- getSelectedIdsFromData of tree-selector.tsx. The duplicate-id warning
of the development branch does not change the returned set, so the dev and
production branches coincide on the value modelled here. -/
def getSelectedIdsFromData (data : List TreeNode) (selectedIds : List String)
    (topLevelOnly : Bool) : Finset String :=
  let initialSet := selectedIds.toFinset
  if initialSet = ∅ then initialSet
  else
    let nodesMap := buildNodesMap data
    if topLevelOnly then
      initialSet.filter fun i => ∀ a ∈ findAncestorIds [i] data, a ∉ initialSet
    else
      initialSet.biUnion fun i =>
        insert i
          (match nodesMap i with
            | some node => (getAllDescendantIds node).toFinset
            | none => ∅)

/-- handleToggleSelected of the TreeSelector component: the pure map from
the previous selection set to the next one, per node, direction and mode. -/
def handleToggleSelected (node : TreeNode) (isChecked : Bool)
    (selectedIdsSet : Finset String) (topLevelOnly : Bool) : Finset String :=
  let descendantIds := getAllDescendantIds node
  if isChecked then
    let withNode := insert node.id selectedIdsSet
    if topLevelOnly then
      descendantIds.foldl (fun s i => s.erase i) withNode
    else
      descendantIds.foldl (fun s i => insert i s) withNode
  else
    let withoutNode := selectedIdsSet.erase node.id
    if !topLevelOnly then
      descendantIds.foldl (fun s i => s.erase i) withoutNode
    else
      withoutNode

/-- handleToggleSelected of the TreeMultiSelector component: checking adds
the node and removes its descendants, unchecking removes only the node. -/
def multiSelectorToggleSelected (node : TreeNode) (isChecked : Bool)
    (prevSelectedIds : Finset String) : Finset String :=
  let descendantIds := getAllDescendantIds node
  if isChecked then
    descendantIds.foldl (fun s i => s.erase i) (insert node.id prevSelectedIds)
  else
    prevSelectedIds.erase node.id

/-- The tri-state checkbox value of TreeNodeItem. -/
inductive CheckState where
  | unchecked : CheckState
  | checked : CheckState
  | indeterminate : CheckState
deriving DecidableEq

/-- The checkedState computation of TreeNodeItem in tree-selector.tsx. -/
def checkedState (node : TreeNode) (selectedIds : Finset String)
    (isAncestorSelected : Bool) : CheckState :=
  if node.id ∈ selectedIds then CheckState.checked
  else if hasSelectedDescendant node selectedIds false || isAncestorSelected then
    CheckState.indeterminate
  else CheckState.unchecked

mutual

/-- The disabled flag of every node rendered by TreeNodeItem, as pairs of
node id and flag: isDisabled is isAncestorSelected, and children receive
isAncestorSelected OR isSelected of the current node, exactly as the JSX
recursion passes it. -/
def treeNodeItemDisabled (selectedIds : Finset String) (isAncestorSelected : Bool) :
    TreeNode → List (String × Bool)
  | ⟨i, _, cs⟩ =>
    (i, isAncestorSelected) ::
      treeNodeItemDisabledL selectedIds (isAncestorSelected || decide (i ∈ selectedIds)) cs

/-- The disabled flags of a rendered child list. -/
def treeNodeItemDisabledL (selectedIds : Finset String) (isAncestorSelected : Bool) :
    List TreeNode → List (String × Bool)
  | [] => []
  | c :: cs =>
    treeNodeItemDisabled selectedIds isAncestorSelected c
      ++ treeNodeItemDisabledL selectedIds isAncestorSelected cs

end

mutual

/-- All nodes of a subtree, the node itself included. Derived notion used
to state ancestor and descendant relations over the tree shape. -/
def subnodes : TreeNode → List TreeNode
  | ⟨i, l, cs⟩ => ⟨i, l, cs⟩ :: subnodesL cs

/-- All nodes of a forest. -/
def subnodesL : List TreeNode → List TreeNode
  | [] => []
  | c :: cs => subnodes c ++ subnodesL cs

end

mutual

/-- The order in which the nodesMap stack loop pops nodes: the node, then
its children right to left (the JS array stack pops the last pushed child
first), roots right to left at top level. -/
def popOrder : TreeNode → List TreeNode
  | ⟨i, l, cs⟩ => ⟨i, l, cs⟩ :: popOrderL cs

def popOrderL : List TreeNode → List TreeNode
  | [] => []
  | c :: cs => popOrderL cs ++ popOrder c

end

/-- The node a find-last scan yields: the last element of l whose id is k,
expressed as the first match of the reversed list. -/
def lastNodeWith (l : List TreeNode) (k : String) : Option TreeNode :=
  l.reverse.find? fun v => decide (v.id = k)

/-- a is the id of a node of the forest that has b among its descendant
ids: the ancestor/descendant relation on ids, derived from the tree shape. -/
def strictAncestor (roots : List TreeNode) (a b : String) : Prop :=
  ∃ m ∈ subnodesL roots, m.id = a ∧ b ∈ getAllDescendantIds m

/-- The data-model invariant of the spec: ids are unique across every node
reachable from the declared roots. -/
def uniqueIds (roots : List TreeNode) : Prop :=
  ((subnodesL roots).map TreeNode.id).Nodup

/-- The CASCADE closure invariant: a member id of s has every descendant id
of its node in s as well. -/
def cascadeClosed (roots : List TreeNode) (s : Finset String) : Prop :=
  ∀ m ∈ subnodesL roots, m.id ∈ s → ∀ d ∈ getAllDescendantIds m, d ∈ s

/-- A strictly descending chain in the tree: descendPath n ms d holds when
one can walk from n through the intermediate nodes ms to the strict
descendant d, each step moving to a child. -/
inductive descendPath : TreeNode → List TreeNode → TreeNode → Prop where
  | direct {n d : TreeNode} : d ∈ n.children → descendPath n [] d
  | step {n c d : TreeNode} {ms : List TreeNode} :
      c ∈ n.children → descendPath c ms d → descendPath n (c :: ms) d

/-- The spec-side reading of indeterminacy: some strict descendant of n is
selected with no intervening selected node on the path between them. -/
def unshadowedSelectedDescendant (n : TreeNode) (s : Finset String) : Prop :=
  ∃ ms d, descendPath n ms d ∧ d.id ∈ s ∧ ∀ m ∈ ms, m.id ∉ s

/-- The sample tree of the spec: fruits with apple, banana and citrus,
citrus with orange and lemon. -/
def appleNode : TreeNode :=
  ⟨"apple", "Apple", []⟩

def bananaNode : TreeNode :=
  ⟨"banana", "Banana", []⟩

def orangeNode : TreeNode :=
  ⟨"orange", "Orange", []⟩

def lemonNode : TreeNode :=
  ⟨"lemon", "Lemon", []⟩

def citrusNode : TreeNode :=
  ⟨"citrus", "Citrus", [orangeNode, lemonNode]⟩

def fruitsNode : TreeNode :=
  ⟨"fruits", "Fruits", [appleNode, bananaNode, citrusNode]⟩

def fruitsTree : List TreeNode :=
  [fruitsNode]

/-- A tree with a duplicated id where one duplicate is an ancestor of the
other, so every top-down traversal encounters the root occurrence first. -/
def dupLeafB : TreeNode :=
  ⟨"dup", "B", []⟩

def dupMid : TreeNode :=
  ⟨"mid", "M", [dupLeafB]⟩

def dupRootA : TreeNode :=
  ⟨"dup", "A", [dupMid]⟩

def dupTree : List TreeNode :=
  [dupRootA]

/-! Structural lemmas about subtrees and descendant ids. -/

theorem subnodes_def (n : TreeNode) : subnodes n = n :: subnodesL n.children := by
  cases n with
  | mk i l cs => simp [subnodes]

theorem getAllDescendantIds_def (n : TreeNode) :
    getAllDescendantIds n = getAllDescendantIdsL n.children := by
  cases n with
  | mk i l cs => simp [getAllDescendantIds]

mutual

theorem getAllDescendantIds_eq_map : ∀ (n : TreeNode),
    getAllDescendantIds n = (subnodesL n.children).map TreeNode.id
  | ⟨_, _, cs⟩ => getAllDescendantIdsL_eq_map cs

theorem getAllDescendantIdsL_eq_map : ∀ (cs : List TreeNode),
    getAllDescendantIdsL cs = (subnodesL cs).map TreeNode.id
  | [] => rfl
  | c :: cs => by
    simp [getAllDescendantIdsL, subnodesL, getAllDescendantIdsL_eq_map cs,
      getAllDescendantIds_eq_map c, subnodes_def c]

end

theorem self_mem_subnodes (n : TreeNode) : n ∈ subnodes n := by
  rw [subnodes_def]
  exact List.mem_cons_self n _

theorem mem_of_mem_children_subnodes {x : TreeNode} {n : TreeNode}
    (h : x ∈ subnodesL n.children) : x ∈ subnodes n := by
  rw [subnodes_def]
  exact List.mem_cons_of_mem _ h

mutual

theorem subnodes_sublist (m : TreeNode) : ∀ (n : TreeNode),
    m ∈ subnodes n → (subnodes m).Sublist (subnodes n)
  | ⟨i, l, cs⟩, hm => by
    rw [subnodes_def] at hm
    rcases List.mem_cons.mp hm with h | h
    · rw [h]
    · rw [subnodes_def ⟨i, l, cs⟩]
      exact (subnodesL_sublist m cs h).cons _

theorem subnodesL_sublist (m : TreeNode) : ∀ (cs : List TreeNode),
    m ∈ subnodesL cs → (subnodes m).Sublist (subnodesL cs)
  | c :: cs, hm => by
    rw [show subnodesL (c :: cs) = subnodes c ++ subnodesL cs from rfl] at hm ⊢
    rcases List.mem_append.mp hm with h | h
    · exact (subnodes_sublist m c h).trans (List.sublist_append_left _ _)
    · exact (subnodesL_sublist m cs h).trans (List.sublist_append_right _ _)

end

theorem mem_subnodes_trans {x m : TreeNode} {cs : List TreeNode}
    (hx : x ∈ subnodes m) (hm : m ∈ subnodesL cs) : x ∈ subnodesL cs :=
  (subnodesL_sublist m cs hm).subset hx

theorem map_id_subnodes (n : TreeNode) :
    (subnodes n).map TreeNode.id = n.id :: getAllDescendantIds n := by
  rw [subnodes_def, List.map_cons, getAllDescendantIds_eq_map]

theorem descIds_subset_forest {m : TreeNode} {cs : List TreeNode}
    (h : m ∈ subnodesL cs) :
    ∀ b ∈ getAllDescendantIds m, b ∈ (subnodesL cs).map TreeNode.id := by
  intro b hb
  rw [getAllDescendantIds_eq_map] at hb
  rcases List.mem_map.mp hb with ⟨x, hx, rfl⟩
  exact List.mem_map_of_mem _ (mem_subnodes_trans (mem_of_mem_children_subnodes hx) h)

theorem descIds_subset_node {m n : TreeNode} (h : m ∈ subnodes n) :
    ∀ b ∈ getAllDescendantIds m, b ∈ (subnodes n).map TreeNode.id := by
  intro b hb
  rw [getAllDescendantIds_eq_map] at hb
  rcases List.mem_map.mp hb with ⟨x, hx, rfl⟩
  exact List.mem_map_of_mem _
    ((subnodes_sublist m n h).subset (mem_of_mem_children_subnodes hx))

theorem nodup_subnodes_of_forest {m : TreeNode} {cs : List TreeNode}
    (hnd : ((subnodesL cs).map TreeNode.id).Nodup) (hm : m ∈ subnodesL cs) :
    ((subnodes m).map TreeNode.id).Nodup :=
  hnd.sublist ((subnodesL_sublist m cs hm).map TreeNode.id)

theorem id_not_mem_descIds {m : TreeNode}
    (h : ((subnodes m).map TreeNode.id).Nodup) : m.id ∉ getAllDescendantIds m := by
  rw [map_id_subnodes] at h
  exact (List.nodup_cons.mp h).1

/-! Characterization of the ancestor search. -/

mutual

theorem searchForAncestors_none (t : String) : ∀ (n : TreeNode) (p : List String),
    searchForAncestors n t p = none ↔ (t ≠ n.id ∧ t ∉ getAllDescendantIds n)
  | ⟨i, l, cs⟩, p => by
    rw [show searchForAncestors ⟨i, l, cs⟩ t p
        = (if i = t then some p else searchForAncestorsL cs t (p ++ [i])) from rfl]
    by_cases hit : i = t
    · simp [hit]
    · rw [if_neg hit, searchForAncestorsL_none t cs (p ++ [i]),
        getAllDescendantIds_def]
      simp only [TreeNode.id]
      constructor
      · intro h
        exact ⟨fun he => hit he.symm, h⟩
      · intro h
        exact h.2

theorem searchForAncestorsL_none (t : String) : ∀ (cs : List TreeNode) (p : List String),
    searchForAncestorsL cs t p = none ↔ t ∉ getAllDescendantIdsL cs
  | [], p => by simp [searchForAncestorsL, getAllDescendantIdsL]
  | c :: cs, p => by
    rw [show searchForAncestorsL (c :: cs) t p
        = (match searchForAncestors c t p with
            | some r => some r
            | none => searchForAncestorsL cs t p) from rfl]
    cases h : searchForAncestors c t p with
    | some r =>
      have hmem : t = c.id ∨ t ∈ getAllDescendantIds c := by
        by_contra hcon
        push_neg at hcon
        rw [← searchForAncestors_none t c p] at hcon
        rw [h] at hcon
        exact Option.some_ne_none r hcon
      simp only [getAllDescendantIdsL]
      constructor
      · intro hfalse
        exact absurd hfalse (Option.some_ne_none r)
      · intro hnot
        exfalso
        apply hnot
        rcases hmem with h1 | h1
        · rw [h1]
          exact List.mem_cons_self _ _
        · exact List.mem_cons_of_mem _ (List.mem_append_left _ h1)
    | none =>
      have hnotc := (searchForAncestors_none t c p).mp h
      rw [searchForAncestorsL_none t cs p]
      simp only [getAllDescendantIdsL, List.mem_cons, List.mem_append]
      constructor
      · intro hrest hbad
        rcases hbad with h1 | h1 | h1
        · exact hnotc.1 h1
        · exact hnotc.2 h1
        · exact hrest h1
      · intro hall h1
        exact hall (Or.inr (Or.inr h1))

end

mutual

theorem searchForAncestors_shape (t : String) : ∀ (n : TreeNode) (p q : List String),
    searchForAncestors n t p = some q → ∃ r, q = p ++ r
  | ⟨i, l, cs⟩, p, q => by
    rw [show searchForAncestors ⟨i, l, cs⟩ t p
        = (if i = t then some p else searchForAncestorsL cs t (p ++ [i])) from rfl]
    by_cases hit : i = t
    · rw [if_pos hit]
      intro h
      exact ⟨[], by simpa using (Option.some_inj.mp h).symm⟩
    · rw [if_neg hit]
      intro h
      rcases searchForAncestorsL_shape t cs (p ++ [i]) q h with ⟨r, hr⟩
      exact ⟨i :: r, by simpa using hr⟩

theorem searchForAncestorsL_shape (t : String) : ∀ (cs : List TreeNode) (p q : List String),
    searchForAncestorsL cs t p = some q → ∃ r, q = p ++ r
  | [], p, q => by
    intro h
    exact absurd h (by simp [searchForAncestorsL])
  | c :: cs, p, q => by
    rw [show searchForAncestorsL (c :: cs) t p
        = (match searchForAncestors c t p with
            | some r => some r
            | none => searchForAncestorsL cs t p) from rfl]
    cases h : searchForAncestors c t p with
    | some r =>
      intro hq
      exact searchForAncestors_shape t c p q (by rw [h]; exact hq)
    | none =>
      intro hq
      exact searchForAncestorsL_shape t cs p q hq

end

mutual

theorem searchForAncestors_sound (t : String) : ∀ (n : TreeNode) (p q : List String),
    searchForAncestors n t p = some q →
    ∀ a ∈ q, a ∈ p ∨ ∃ m ∈ subnodes n, m.id = a ∧ t ∈ getAllDescendantIds m
  | ⟨i, l, cs⟩, p, q => by
    rw [show searchForAncestors ⟨i, l, cs⟩ t p
        = (if i = t then some p else searchForAncestorsL cs t (p ++ [i])) from rfl]
    by_cases hit : i = t
    · rw [if_pos hit]
      intro h a ha
      rw [← Option.some_inj.mp h] at ha
      exact Or.inl ha
    · rw [if_neg hit]
      intro h a ha
      have hdesc : t ∈ getAllDescendantIds (⟨i, l, cs⟩ : TreeNode) := by
        by_contra hcon
        have : searchForAncestorsL cs t (p ++ [i]) = none := by
          rw [searchForAncestorsL_none]
          rw [getAllDescendantIds_def] at hcon
          exact hcon
        rw [this] at h
        exact Option.some_ne_none q h.symm
      rcases searchForAncestorsL_sound t cs (p ++ [i]) q h a ha with hp | ⟨m, hm, hid, htm⟩
      · rcases List.mem_append.mp hp with h1 | h1
        · exact Or.inl h1
        · refine Or.inr ⟨⟨i, l, cs⟩, self_mem_subnodes _, ?_, hdesc⟩
          simpa using (List.mem_singleton.mp h1).symm
      · exact Or.inr ⟨m, mem_of_mem_children_subnodes hm, hid, htm⟩

theorem searchForAncestorsL_sound (t : String) : ∀ (cs : List TreeNode) (p q : List String),
    searchForAncestorsL cs t p = some q →
    ∀ a ∈ q, a ∈ p ∨ ∃ m ∈ subnodesL cs, m.id = a ∧ t ∈ getAllDescendantIds m
  | [], p, q => by
    intro h
    exact absurd h (by simp [searchForAncestorsL])
  | c :: cs, p, q => by
    rw [show searchForAncestorsL (c :: cs) t p
        = (match searchForAncestors c t p with
            | some r => some r
            | none => searchForAncestorsL cs t p) from rfl]
    cases h : searchForAncestors c t p with
    | some r =>
      intro hq a ha
      rcases searchForAncestors_sound t c p q (by rw [h]; exact hq) a ha with h1 | ⟨m, hm, hrest⟩
      · exact Or.inl h1
      · exact Or.inr ⟨m, by
          rw [show subnodesL (c :: cs) = subnodes c ++ subnodesL cs from rfl]
          exact List.mem_append_left _ hm, hrest⟩
    | none =>
      intro hq a ha
      rcases searchForAncestorsL_sound t cs p q hq a ha with h1 | ⟨m, hm, hrest⟩
      · exact Or.inl h1
      · exact Or.inr ⟨m, by
          rw [show subnodesL (c :: cs) = subnodes c ++ subnodesL cs from rfl]
          exact List.mem_append_right _ hm, hrest⟩

end

mutual

theorem searchForAncestors_complete (b : String) : ∀ (n : TreeNode),
    ((subnodes n).map TreeNode.id).Nodup →
    ∀ (m : TreeNode), m ∈ subnodes n → ∀ (p : List String), b ∈ getAllDescendantIds m →
    ∃ q, searchForAncestors n b p = some q ∧ m.id ∈ q
  | ⟨i, l, cs⟩, hnd, m, hm, p, hb => by
    have hbn : b ∈ getAllDescendantIds (⟨i, l, cs⟩ : TreeNode) := by
      rw [subnodes_def] at hm
      rcases List.mem_cons.mp hm with h | h
      · rw [h] at hb
        exact hb
      · rw [getAllDescendantIds_eq_map]
        exact descIds_subset_forest h b hb
    have hbi : b ≠ i := by
      intro he
      subst he
      exact id_not_mem_descIds hnd hbn
    rw [show searchForAncestors ⟨i, l, cs⟩ b p
        = (if i = b then some p else searchForAncestorsL cs b (p ++ [i])) from rfl,
      if_neg (fun hh => hbi hh.symm)]
    rw [subnodes_def] at hm
    rcases List.mem_cons.mp hm with h | h
    · have hbcs : b ∈ getAllDescendantIdsL cs := by
        rw [getAllDescendantIds_def] at hbn
        exact hbn
      cases hs : searchForAncestorsL cs b (p ++ [i]) with
      | none =>
        exact absurd hbcs ((searchForAncestorsL_none b cs (p ++ [i])).mp hs)
      | some q =>
        rcases searchForAncestorsL_shape b cs (p ++ [i]) q hs with ⟨r, hr⟩
        refine ⟨q, rfl, ?_⟩
        rw [h, hr]
        simp
    · have hndcs : ((subnodesL cs).map TreeNode.id).Nodup := by
        rw [map_id_subnodes] at hnd
        have h2 := (List.nodup_cons.mp hnd).2
        rw [getAllDescendantIds_eq_map] at h2
        exact h2
      exact searchForAncestorsL_complete b cs hndcs m h (p ++ [i]) hb

theorem searchForAncestorsL_complete (b : String) : ∀ (cs : List TreeNode),
    ((subnodesL cs).map TreeNode.id).Nodup →
    ∀ (m : TreeNode), m ∈ subnodesL cs → ∀ (p : List String), b ∈ getAllDescendantIds m →
    ∃ q, searchForAncestorsL cs b p = some q ∧ m.id ∈ q
  | [], _, m, hm, p, _ => absurd hm (by simp [subnodesL])
  | c :: cs, hnd, m, hm, p, hb => by
    have hsplit : subnodesL (c :: cs) = subnodes c ++ subnodesL cs := rfl
    rw [hsplit, List.map_append] at hnd
    rw [show searchForAncestorsL (c :: cs) b p
        = (match searchForAncestors c b p with
            | some r => some r
            | none => searchForAncestorsL cs b p) from rfl]
    rw [hsplit] at hm
    rcases List.mem_append.mp hm with h | h
    · rcases searchForAncestors_complete b c hnd.of_append_left m h p hb with ⟨q, hq, hmq⟩
      exact ⟨q, by rw [hq], hmq⟩
    · have hbcs : b ∈ (subnodesL cs).map TreeNode.id := descIds_subset_forest h b hb
      have hdisj := List.disjoint_of_nodup_append hnd
      have hbc : b ∉ (subnodes c).map TreeNode.id := fun hin => hdisj hin hbcs
      have hnone : searchForAncestors c b p = none := by
        rw [searchForAncestors_none]
        rw [map_id_subnodes, List.mem_cons] at hbc
        push_neg at hbc
        exact hbc
      rw [hnone]
      exact searchForAncestorsL_complete b cs hnd.of_append_right m h p hb

end

theorem mem_ancestorPathOf_sound {a b : String} : ∀ (roots : List TreeNode),
    a ∈ ancestorPathOf roots b → strictAncestor roots a b := by
  intro roots
  induction roots with
  | nil => simp [ancestorPathOf]
  | cons r rs ih =>
    rw [show ancestorPathOf (r :: rs) b
        = (match searchForAncestors r b [] with
            | some p => p
            | none => ancestorPathOf rs b) from rfl]
    cases h : searchForAncestors r b [] with
    | some p =>
      intro ha
      rcases searchForAncestors_sound b r [] p h a ha with h1 | ⟨m, hm, hrest⟩
      · exact absurd h1 (List.not_mem_nil a)
      · exact ⟨m, by
          rw [show subnodesL (r :: rs) = subnodes r ++ subnodesL rs from rfl]
          exact List.mem_append_left _ hm, hrest⟩
    | none =>
      intro ha
      rcases ih ha with ⟨m, hm, hrest⟩
      exact ⟨m, by
        rw [show subnodesL (r :: rs) = subnodes r ++ subnodesL rs from rfl]
        exact List.mem_append_right _ hm, hrest⟩

theorem mem_ancestorPathOf_complete {b : String} : ∀ (roots : List TreeNode),
    uniqueIds roots → ∀ (m : TreeNode), m ∈ subnodesL roots →
    b ∈ getAllDescendantIds m → m.id ∈ ancestorPathOf roots b := by
  intro roots
  induction roots with
  | nil => simp [subnodesL]
  | cons r rs ih =>
    intro hu m hm hb
    have hsplit : subnodesL (r :: rs) = subnodes r ++ subnodesL rs := rfl
    rw [uniqueIds, hsplit, List.map_append] at hu
    rw [show ancestorPathOf (r :: rs) b
        = (match searchForAncestors r b [] with
            | some p => p
            | none => ancestorPathOf rs b) from rfl]
    rw [hsplit] at hm
    rcases List.mem_append.mp hm with h | h
    · rcases searchForAncestors_complete b r hu.of_append_left m h [] hb with ⟨q, hq, hmq⟩
      rw [hq]
      exact hmq
    · have hbcs : b ∈ (subnodesL rs).map TreeNode.id := descIds_subset_forest h b hb
      have hdisj := List.disjoint_of_nodup_append hu
      have hbc : b ∉ (subnodes r).map TreeNode.id := fun hin => hdisj hin hbcs
      have hnone : searchForAncestors r b [] = none := by
        rw [searchForAncestors_none]
        rw [map_id_subnodes, List.mem_cons] at hbc
        push_neg at hbc
        exact hbc
      rw [hnone]
      exact ih hu.of_append_right m h hb

theorem mem_ancestorPathOf_iff {a b : String} {roots : List TreeNode}
    (hu : uniqueIds roots) : a ∈ ancestorPathOf roots b ↔ strictAncestor roots a b := by
  constructor
  · exact mem_ancestorPathOf_sound roots
  · rintro ⟨m, hm, rfl, hb⟩
    exact mem_ancestorPathOf_complete roots hu m hm hb

theorem ancestorPathOf_of_ghost {t : String} : ∀ (roots : List TreeNode),
    t ∉ (subnodesL roots).map TreeNode.id → ancestorPathOf roots t = [] := by
  intro roots
  induction roots with
  | nil => intro _; rfl
  | cons r rs ih =>
    intro ht
    have hsplit : subnodesL (r :: rs) = subnodes r ++ subnodesL rs := rfl
    rw [hsplit, List.map_append, List.mem_append] at ht
    push_neg at ht
    have hnone : searchForAncestors r t [] = none := by
      rw [searchForAncestors_none]
      have h1 := ht.1
      rw [map_id_subnodes, List.mem_cons] at h1
      push_neg at h1
      exact h1
    rw [show ancestorPathOf (r :: rs) t
        = (match searchForAncestors r t [] with
            | some p => p
            | none => ancestorPathOf rs t) from rfl, hnone]
    exact ih ht.2

theorem strictAncestor_irrefl {a : String} {roots : List TreeNode}
    (hu : uniqueIds roots) : ¬ strictAncestor roots a a := by
  rintro ⟨m, hm, rfl, hmem⟩
  exact id_not_mem_descIds (nodup_subnodes_of_forest hu hm) hmem

/-! The stack loop building nodesMap: its pop order and final value. -/

theorem sizeForestT_append (a b : List TreeNode) :
    sizeForestT (a ++ b) = sizeForestT a + sizeForestT b := by
  induction a with
  | nil => simp [sizeForestT]
  | cons x xs ih => simp [sizeForestT, ih]; omega

theorem sizeForestT_reverse (a : List TreeNode) :
    sizeForestT a.reverse = sizeForestT a := by
  induction a with
  | nil => rfl
  | cons x xs ih => simp [List.reverse_cons, sizeForestT_append, sizeForestT, ih]; omega

theorem sizeT_pos (n : TreeNode) : 1 ≤ sizeT n := by
  cases n with
  | mk i l cs => simp [sizeT]

theorem buildMapLoop_append : ∀ (a b : List TreeNode) (m : String → Option TreeNode),
    buildMapLoop (a ++ b) m = buildMapLoop b (buildMapLoop a m)
  | [], b, m => by
    rw [List.nil_append]
    rw [show buildMapLoop ([] : List TreeNode) m = m from by rw [buildMapLoop]]
  | n :: a, b, m => by
    rw [List.cons_append, buildMapLoop, ← List.append_assoc,
      buildMapLoop_append (n.children.reverse ++ a) b (mapSet m n), buildMapLoop]
termination_by a => sizeForestT a
decreasing_by
  cases n with
  | mk i l cs =>
    simp [sizeForestT, sizeT, sizeForestT_append, sizeForestT_reverse]

theorem buildMapLoop_eq_foldl : ∀ (cs : List TreeNode) (m : String → Option TreeNode),
    buildMapLoop cs.reverse m = (popOrderL cs).foldl mapSet m
  | [], m => by
    rw [show popOrderL [] = [] from rfl, List.reverse_nil, List.foldl_nil]
    rw [buildMapLoop]
  | c :: cs, m => by
    rw [List.reverse_cons, buildMapLoop_append, buildMapLoop_eq_foldl cs m]
    cases c with
    | mk i l ccs =>
      rw [show buildMapLoop [(⟨i, l, ccs⟩ : TreeNode)] ((popOrderL cs).foldl mapSet m)
          = buildMapLoop ccs.reverse
              (mapSet ((popOrderL cs).foldl mapSet m) ⟨i, l, ccs⟩) from by
        rw [buildMapLoop]
        rw [List.append_nil]]
      rw [buildMapLoop_eq_foldl ccs]
      rw [show popOrderL (⟨i, l, ccs⟩ :: cs) = popOrderL cs ++ popOrder ⟨i, l, ccs⟩ from rfl]
      rw [List.foldl_append]
      rw [show popOrder (⟨i, l, ccs⟩ : TreeNode) = ⟨i, l, ccs⟩ :: popOrderL ccs from rfl]
      rw [List.foldl_cons]
termination_by cs => sizeForestT cs
decreasing_by
  · simp [sizeForestT]
    have := sizeT_pos c
    omega
  · simp [sizeForestT, sizeT]
    omega

theorem foldl_mapSet_apply : ∀ (l : List TreeNode) (m : String → Option TreeNode) (k : String),
    (l.foldl mapSet m) k
      = (match l.reverse.find? (fun v => decide (v.id = k)) with
          | some v => some v
          | none => m k) := by
  intro l
  induction l with
  | nil => intro m k; rfl
  | cons c l ih =>
    intro m k
    rw [List.foldl_cons, ih (mapSet m c) k, List.reverse_cons, List.find?_append]
    cases hf : l.reverse.find? (fun v => decide (v.id = k)) with
    | some v => rfl
    | none =>
      by_cases hc : c.id = k
      · simp [mapSet, hc, Option.or]
      · have : k ≠ c.id := fun he => hc he.symm
        simp [mapSet, hc, this, Option.or]

theorem buildNodesMap_eq (data : List TreeNode) (k : String) :
    buildNodesMap data k = lastNodeWith (popOrderL data) k := by
  rw [buildNodesMap, buildMapLoop_eq_foldl data, foldl_mapSet_apply, lastNodeWith]
  cases hf : (popOrderL data).reverse.find? (fun v => decide (v.id = k)) with
  | some v => rfl
  | none => rfl

mutual

theorem mem_popOrder (x : TreeNode) : ∀ (n : TreeNode), x ∈ popOrder n ↔ x ∈ subnodes n
  | ⟨i, l, cs⟩ => by
    rw [show popOrder ⟨i, l, cs⟩ = ⟨i, l, cs⟩ :: popOrderL cs from rfl,
      show subnodes ⟨i, l, cs⟩ = ⟨i, l, cs⟩ :: subnodesL cs from rfl]
    simp [mem_popOrderL x cs]

theorem mem_popOrderL (x : TreeNode) : ∀ (cs : List TreeNode),
    x ∈ popOrderL cs ↔ x ∈ subnodesL cs
  | [] => Iff.rfl
  | c :: cs => by
    rw [show popOrderL (c :: cs) = popOrderL cs ++ popOrder c from rfl,
      show subnodesL (c :: cs) = subnodes c ++ subnodesL cs from rfl]
    simp [List.mem_append, mem_popOrder x c, mem_popOrderL x cs]
    exact Or.comm

end

theorem buildNodesMap_some {data : List TreeNode} {k : String} {v : TreeNode}
    (h : buildNodesMap data k = some v) : v ∈ subnodesL data ∧ v.id = k := by
  rw [buildNodesMap_eq, lastNodeWith] at h
  constructor
  · have := List.mem_of_find?_eq_some h
    rw [List.mem_reverse] at this
    exact (mem_popOrderL v data).mp this
  · have := List.find?_some h
    exact of_decide_eq_true this

theorem buildNodesMap_of_id_mem {data : List TreeNode} {k : String}
    (h : ∃ w ∈ subnodesL data, w.id = k) : ∃ v, buildNodesMap data k = some v := by
  rcases h with ⟨w, hw, hwk⟩
  rw [buildNodesMap_eq, lastNodeWith]
  have hmem : w ∈ (popOrderL data).reverse := by
    rw [List.mem_reverse]
    exact (mem_popOrderL w data).mpr hw
  have : ((popOrderL data).reverse.find? (fun v => decide (v.id = k))).isSome := by
    rw [List.find?_isSome]
    exact ⟨w, hmem, by rw [hwk]; simp⟩
  rcases Option.isSome_iff_exists.mp this with ⟨v, hv⟩
  exact ⟨v, hv⟩

theorem buildNodesMap_none {data : List TreeNode} {k : String}
    (h : k ∉ (subnodesL data).map TreeNode.id) : buildNodesMap data k = none := by
  cases hm : buildNodesMap data k with
  | none => rfl
  | some v =>
    rcases buildNodesMap_some hm with ⟨hv, hvk⟩
    exact absurd (hvk ▸ List.mem_map_of_mem TreeNode.id hv) h

theorem buildNodesMap_unique {data : List TreeNode} {w : TreeNode}
    (hu : uniqueIds data) (hw : w ∈ subnodesL data) :
    buildNodesMap data w.id = some w := by
  rcases buildNodesMap_of_id_mem ⟨w, hw, rfl⟩ with ⟨v, hv⟩
  rcases buildNodesMap_some hv with ⟨hvmem, hvid⟩
  have : v = w := List.inj_on_of_nodup_map hu hvmem hw hvid
  rw [hv, this]

/-! Membership characterizations of normalization and of the toggles. -/

theorem findAncestorIds_singleton (t : String) (nodes : List TreeNode) :
    findAncestorIds [t] nodes = (ancestorPathOf nodes t).toFinset := by
  simp [findAncestorIds]

theorem mem_getSelectedIdsFromData_cascade (data : List TreeNode) (R : List String)
    (x : String) :
    x ∈ getSelectedIdsFromData data R false ↔
      ∃ i ∈ R, x = i ∨ ∃ v, buildNodesMap data i = some v ∧ x ∈ getAllDescendantIds v := by
  have hmatch : ∀ (i : String) (o : Option TreeNode),
      x ∈ insert i (match o with
        | some nd => (getAllDescendantIds nd).toFinset
        | none => (∅ : Finset String))
        ↔ (x = i ∨ ∃ v, o = some v ∧ x ∈ getAllDescendantIds v) := by
    intro i o
    cases o with
    | some nd => simp [List.mem_toFinset]
    | none => simp
  rw [getSelectedIdsFromData]
  by_cases h : R.toFinset = (∅ : Finset String)
  · have hR : R = [] := by
      rw [← List.toFinset_eq_empty_iff]
      exact h
    simp [h, hR]
  · rw [if_neg h, if_neg Bool.false_ne_true, Finset.mem_biUnion]
    constructor
    · rintro ⟨i, hi, hx⟩
      exact ⟨i, List.mem_toFinset.mp hi, (hmatch i (buildNodesMap data i)).mp hx⟩
    · rintro ⟨i, hi, hx⟩
      exact ⟨i, List.mem_toFinset.mpr hi, (hmatch i (buildNodesMap data i)).mpr hx⟩

theorem mem_getSelectedIdsFromData_tlo (data : List TreeNode) (R : List String)
    (x : String) :
    x ∈ getSelectedIdsFromData data R true ↔
      x ∈ R ∧ ∀ a ∈ ancestorPathOf data x, a ∉ R := by
  rw [getSelectedIdsFromData]
  by_cases h : R.toFinset = (∅ : Finset String)
  · have hR : R = [] := by
      rw [← List.toFinset_eq_empty_iff]
      exact h
    simp [h, hR]
  · rw [if_neg h, if_pos rfl, Finset.mem_filter]
    simp only [findAncestorIds_singleton, List.mem_toFinset]

theorem foldl_erase_eq (l : List String) : ∀ (s : Finset String),
    l.foldl (fun s i => s.erase i) s = s \ l.toFinset := by
  induction l with
  | nil => intro s; simp
  | cons c l ih =>
    intro s
    rw [List.foldl_cons, ih]
    ext x
    simp only [Finset.mem_sdiff, Finset.mem_erase, List.toFinset_cons,
      Finset.mem_insert, List.mem_toFinset]
    constructor
    · rintro ⟨⟨hne, hx⟩, hnl⟩
      exact ⟨hx, fun hor => by
        rcases hor with h1 | h1
        · exact hne h1
        · exact hnl h1⟩
    · rintro ⟨hx, hnor⟩
      exact ⟨⟨fun he => hnor (Or.inl he), hx⟩, fun hl => hnor (Or.inr hl)⟩

theorem foldl_insert_eq (l : List String) : ∀ (s : Finset String),
    l.foldl (fun s i => insert i s) s = s ∪ l.toFinset := by
  induction l with
  | nil => intro s; simp
  | cons c l ih =>
    intro s
    rw [List.foldl_cons, ih]
    ext x
    simp only [Finset.mem_union, Finset.mem_insert, List.toFinset_cons, List.mem_toFinset]
    tauto

theorem toggle_check_tlo (node : TreeNode) (s : Finset String) :
    handleToggleSelected node true s true
      = insert node.id s \ (getAllDescendantIds node).toFinset := by
  rw [handleToggleSelected]
  simp [foldl_erase_eq]

theorem toggle_check_cascade (node : TreeNode) (s : Finset String) :
    handleToggleSelected node true s false
      = insert node.id s ∪ (getAllDescendantIds node).toFinset := by
  rw [handleToggleSelected]
  simp [foldl_insert_eq]

theorem toggle_uncheck_cascade (node : TreeNode) (s : Finset String) :
    handleToggleSelected node false s false
      = s.erase node.id \ (getAllDescendantIds node).toFinset := by
  rw [handleToggleSelected]
  simp [foldl_erase_eq]

theorem toggle_uncheck_tlo (node : TreeNode) (s : Finset String) :
    handleToggleSelected node false s true = s.erase node.id := by
  rw [handleToggleSelected]
  simp

theorem multi_toggle_eq (node : TreeNode) (isChecked : Bool) (s : Finset String) :
    multiSelectorToggleSelected node isChecked s
      = handleToggleSelected node isChecked s true := by
  rw [multiSelectorToggleSelected, handleToggleSelected]
  cases isChecked with
  | true => simp
  | false => simp

/-! Characterization of hasSelectedDescendant and of the disabled flag. -/

mutual

theorem hasSelectedDescendant_anc_true (s : Finset String) : ∀ (n : TreeNode),
    hasSelectedDescendant n s true = false
  | ⟨i, l, cs⟩ => by
    rw [show hasSelectedDescendant ⟨i, l, cs⟩ s true
        = hasSelectedDescendantL cs s true from rfl]
    exact hasSelectedDescendantL_anc_true s cs

theorem hasSelectedDescendantL_anc_true (s : Finset String) : ∀ (cs : List TreeNode),
    hasSelectedDescendantL cs s true = false
  | [] => rfl
  | c :: cs => by
    rw [show hasSelectedDescendantL (c :: cs) s true
        = ((decide (c.id ∈ s) && !true)
            || hasSelectedDescendant c s (true || decide (c.id ∈ s))
            || hasSelectedDescendantL cs s true) from rfl]
    rw [show (true || decide (c.id ∈ s)) = true from by simp]
    rw [hasSelectedDescendant_anc_true s c, hasSelectedDescendantL_anc_true s cs]
    simp

end

theorem unshadowed_iff_children (n : TreeNode) (s : Finset String) :
    unshadowedSelectedDescendant n s
      ↔ ∃ c ∈ n.children, c.id ∈ s ∨ unshadowedSelectedDescendant c s := by
  constructor
  · rintro ⟨ms, d, hpath, hd, hms⟩
    cases hpath with
    | direct hdc => exact ⟨d, hdc, Or.inl hd⟩
    | @step _ c _ ms2 hc hpath2 =>
      refine ⟨c, hc, Or.inr ⟨ms2, d, hpath2, hd, fun m hm => ?_⟩⟩
      exact hms m (List.mem_cons_of_mem _ hm)
  · rintro ⟨c, hc, h | h⟩
    · exact ⟨[], c, descendPath.direct hc, h, by simp⟩
    · rcases h with ⟨ms, d, hpath, hd, hms⟩
      by_cases hcs : c.id ∈ s
      · exact ⟨[], c, descendPath.direct hc, hcs, by simp⟩
      · refine ⟨c :: ms, d, descendPath.step hc hpath, hd, fun m hm => ?_⟩
        rcases List.mem_cons.mp hm with h1 | h1
        · rw [h1]
          exact hcs
        · exact hms m h1

mutual

theorem hasSelectedDescendant_false_iff (s : Finset String) : ∀ (n : TreeNode),
    hasSelectedDescendant n s false = true ↔ unshadowedSelectedDescendant n s
  | ⟨i, l, cs⟩ => by
    rw [show hasSelectedDescendant ⟨i, l, cs⟩ s false
        = hasSelectedDescendantL cs s false from rfl]
    rw [hasSelectedDescendantL_false_iff s cs]
    exact (unshadowed_iff_children ⟨i, l, cs⟩ s).symm

theorem hasSelectedDescendantL_false_iff (s : Finset String) : ∀ (cs : List TreeNode),
    hasSelectedDescendantL cs s false = true
      ↔ ∃ c ∈ cs, c.id ∈ s ∨ unshadowedSelectedDescendant c s
  | [] => by simp [hasSelectedDescendantL]
  | c :: cs => by
    rw [show hasSelectedDescendantL (c :: cs) s false
        = ((decide (c.id ∈ s) && !false)
            || hasSelectedDescendant c s (false || decide (c.id ∈ s))
            || hasSelectedDescendantL cs s false) from rfl]
    by_cases hc : c.id ∈ s
    · rw [show decide (c.id ∈ s) = true from by simp [hc]]
      rw [show ((true : Bool) && !false) = true from rfl]
      simp only [Bool.true_or]
      constructor
      · intro _
        exact ⟨c, List.mem_cons_self _ _, Or.inl hc⟩
      · intro _
        trivial
    · rw [show decide (c.id ∈ s) = false from by simp [hc]]
      rw [show ((false : Bool) || false) = false from rfl]
      simp only [Bool.false_and, Bool.false_or, Bool.or_eq_true]
      rw [hasSelectedDescendant_false_iff s c, hasSelectedDescendantL_false_iff s cs]
      constructor
      · rintro (h | ⟨d, hd, hrest⟩)
        · exact ⟨c, List.mem_cons_self _ _, Or.inr h⟩
        · exact ⟨d, List.mem_cons_of_mem _ hd, hrest⟩
      · rintro ⟨d, hd, hrest⟩
        rcases List.mem_cons.mp hd with h1 | h1
        · subst h1
          rcases hrest with h2 | h2
          · exact absurd h2 hc
          · exact Or.inl h2
        · exact Or.inr ⟨d, h1, hrest⟩

end

mutual

theorem treeNodeItemDisabled_mem_iff (s : Finset String) (x : String) :
    ∀ (anc : Bool) (n : TreeNode),
    ((x, true) ∈ treeNodeItemDisabled s anc n ↔
      ((anc = true ∧ (x = n.id ∨ x ∈ getAllDescendantIds n))
        ∨ ∃ m ∈ subnodes n, m.id ∈ s ∧ x ∈ getAllDescendantIds m))
  | anc, ⟨i, l, cs⟩ => by
    rw [show treeNodeItemDisabled s anc ⟨i, l, cs⟩
        = (i, anc) :: treeNodeItemDisabledL s (anc || decide (i ∈ s)) cs from rfl]
    rw [List.mem_cons]
    rw [treeNodeItemDisabledL_mem_iff s x (anc || decide (i ∈ s)) cs]
    rw [show getAllDescendantIds (⟨i, l, cs⟩ : TreeNode) = getAllDescendantIdsL cs from rfl]
    rw [subnodes_def]
    simp only [Prod.mk.injEq, Bool.or_eq_true, decide_eq_true_eq, List.mem_cons]
    constructor
    · rintro (⟨hx, hanc⟩ | ⟨hor, hD⟩ | ⟨m, hm, hms, hxm⟩)
      · exact Or.inl ⟨hanc.symm, Or.inl hx⟩
      · rcases hor with h1 | h1
        · exact Or.inl ⟨h1, Or.inr hD⟩
        · exact Or.inr ⟨⟨i, l, cs⟩, Or.inl rfl, h1, hD⟩
      · exact Or.inr ⟨m, Or.inr hm, hms, hxm⟩
    · rintro (⟨hanc, hor⟩ | ⟨m, hm | hm, hms, hxm⟩)
      · rcases hor with h1 | h1
        · exact Or.inl ⟨h1, hanc.symm⟩
        · exact Or.inr (Or.inl ⟨Or.inl hanc, h1⟩)
      · subst hm
        exact Or.inr (Or.inl ⟨Or.inr hms, hxm⟩)
      · exact Or.inr (Or.inr ⟨m, hm, hms, hxm⟩)

theorem treeNodeItemDisabledL_mem_iff (s : Finset String) (x : String) :
    ∀ (anc : Bool) (cs : List TreeNode),
    ((x, true) ∈ treeNodeItemDisabledL s anc cs ↔
      ((anc = true ∧ x ∈ getAllDescendantIdsL cs)
        ∨ ∃ m ∈ subnodesL cs, m.id ∈ s ∧ x ∈ getAllDescendantIds m))
  | anc, [] => by simp [treeNodeItemDisabledL, getAllDescendantIdsL, subnodesL]
  | anc, c :: cs => by
    rw [show treeNodeItemDisabledL s anc (c :: cs)
        = treeNodeItemDisabled s anc c ++ treeNodeItemDisabledL s anc cs from rfl]
    rw [List.mem_append]
    rw [treeNodeItemDisabled_mem_iff s x anc c, treeNodeItemDisabledL_mem_iff s x anc cs]
    rw [show subnodesL (c :: cs) = subnodes c ++ subnodesL cs from rfl]
    rw [show getAllDescendantIdsL (c :: cs)
        = c.id :: (getAllDescendantIds c ++ getAllDescendantIdsL cs) from rfl]
    simp only [List.mem_cons, List.mem_append]
    constructor
    · rintro ((⟨hanc, hor⟩ | ⟨m, hm, hms, hxm⟩) | (⟨hanc, hD⟩ | ⟨m, hm, hms, hxm⟩))
      · rcases hor with h1 | h1
        · exact Or.inl ⟨hanc, Or.inl h1⟩
        · exact Or.inl ⟨hanc, Or.inr (Or.inl h1)⟩
      · exact Or.inr ⟨m, Or.inl hm, hms, hxm⟩
      · exact Or.inl ⟨hanc, Or.inr (Or.inr hD)⟩
      · exact Or.inr ⟨m, Or.inr hm, hms, hxm⟩
    · rintro (⟨hanc, h1 | h1 | h1⟩ | ⟨m, hm | hm, hms, hxm⟩)
      · exact Or.inl (Or.inl ⟨hanc, Or.inl h1⟩)
      · exact Or.inl (Or.inl ⟨hanc, Or.inr h1⟩)
      · exact Or.inr (Or.inl ⟨hanc, h1⟩)
      · exact Or.inl (Or.inr ⟨m, hm, hms, hxm⟩)
      · exact Or.inr (Or.inr ⟨m, hm, hms, hxm⟩)

end

theorem hasSelectedDescendant_false_iff_not (s : Finset String) (n : TreeNode) :
    hasSelectedDescendant n s false = false ↔ ¬ unshadowedSelectedDescendant n s := by
  rw [← hasSelectedDescendant_false_iff s n]
  cases h : hasSelectedDescendant n s false with
  | true => simp
  | false => simp

theorem descendant_node_exists {v : TreeNode} {x : String}
    (hx : x ∈ getAllDescendantIds v) :
    ∃ w ∈ subnodesL v.children, w.id = x
      ∧ ∀ d ∈ getAllDescendantIds w, d ∈ getAllDescendantIds v := by
  rw [getAllDescendantIds_eq_map] at hx
  rcases List.mem_map.mp hx with ⟨w, hw, hwx⟩
  refine ⟨w, hw, hwx, fun d hd => ?_⟩
  rw [getAllDescendantIds_eq_map]
  exact descIds_subset_forest hw d hd

theorem mem_forest_of_below {data : List TreeNode} {v w : TreeNode}
    (hv : v ∈ subnodesL data) (hw : w ∈ subnodesL v.children) : w ∈ subnodesL data :=
  mem_subnodes_trans (mem_of_mem_children_subnodes hw) hv

/-! Claim theorems. -/

/-- Claim C1, counterexample: in TOP_LEVEL_ONLY mode, checking apple while
its strict ancestor fruits is already selected still adds apple, so the
pre-existing ancestor selection does not win and the result violates the
antichain invariant (both fruits and apple are members). -/
theorem c1_counterexample :
    strictAncestor fruitsTree ("fruits") ("apple")
      ∧ ("fruits") ∈ ({"fruits"} : Finset String)
      ∧ ("apple") ∈ handleToggleSelected appleNode true ({"fruits"} : Finset String) true
      ∧ ("fruits") ∈ handleToggleSelected appleNode true ({"fruits"} : Finset String) true := by
  refine ⟨⟨fruitsNode, by decide, rfl, by decide⟩, by decide, by decide, by decide⟩

/-- Claim C1 (amended): the TOP_LEVEL_ONLY checking toggle adds node.id and
removes exactly the descendant ids of the node, with no ancestor check at
all: a member survives iff it was a member or is the toggled id, and is not
a descendant id.  A pre-selected strict ancestor is left in place and the
antichain invariant can be violated; the protection against toggling under
a selected ancestor exists only as the UI disabled flag, not in the toggle.
The TreeMultiSelector toggle computes the same set. -/
theorem c1_theorem : ∀ (s : Finset String) (node : TreeNode),
    (∀ x, x ∈ handleToggleSelected node true s true
        ↔ ((x = node.id ∨ x ∈ s) ∧ x ∉ getAllDescendantIds node))
      ∧ multiSelectorToggleSelected node true s = handleToggleSelected node true s true := by
  intro s node
  constructor
  · intro x
    rw [toggle_check_tlo]
    simp [Finset.mem_sdiff, Finset.mem_insert, List.mem_toFinset]
  · exact multi_toggle_eq node true s

/-- Claim C2, counterexample: in dupTree the id dup occurs on the root
(label A) and on a grandchild (label B); the root is encountered first by
the index-building traversal, yet the lookup of dup yields the
grandchild, because a later Map.set overwrites the earlier entry. -/
theorem c2_counterexample :
    ((popOrderL dupTree).find? (fun v => decide (v.id = "dup"))).map TreeNode.label
        = some ("A")
      ∧ ((buildNodesMap dupTree) ("dup")).map TreeNode.label = some ("B") := by
  constructor
  · decide
  · rw [buildNodesMap_eq]
    decide

/-- Claim C2 (amended): the id-to-node index keeps the LAST-encountered
node for every id: the lookup equals the first match when the traversal
pop order is scanned from its end, so later occurrences of a duplicated id
overwrite the earlier entry instead of being shadowed by it. -/
theorem c2_theorem : ∀ (data : List TreeNode) (k : String),
    buildNodesMap data k
      = (popOrderL data).reverse.find? (fun v => decide (v.id = k)) := by
  intro data k
  rw [buildNodesMap_eq]
  rfl

/-- Claim C5, counterexample: rendering the fruits tree with the CASCADE
canonical set obtained by selecting fruits marks apple disabled, so
disabling is not restricted to TOP_LEVEL_ONLY mode. -/
theorem c5_counterexample :
    (("apple", true)
      ∈ treeNodeItemDisabled (getSelectedIdsFromData fruitsTree ["fruits"] false)
          false fruitsNode) := by
  rw [treeNodeItemDisabled_mem_iff]
  refine Or.inr ⟨fruitsNode, self_mem_subnodes _, ?_, by decide⟩
  rw [mem_getSelectedIdsFromData_cascade]
  exact ⟨"fruits", by decide, Or.inl rfl⟩

/-- Claim C5 (amended): the disabled flag is mode-independent: for any
selection set, a node rendered below the root with ancestorSelected false
is disabled exactly when some node of the rendered tree that is a strict
ancestor of it is selected.  In CASCADE mode the descendants of a selected
node are therefore disabled as well, not left enabled. -/
theorem c5_theorem : ∀ (n : TreeNode) (s : Finset String) (x : String),
    ((x, true) ∈ treeNodeItemDisabled s false n
      ↔ ∃ m ∈ subnodes n, m.id ∈ s ∧ x ∈ getAllDescendantIds m) := by
  intro n s x
  rw [treeNodeItemDisabled_mem_iff]
  constructor
  · rintro (⟨h1, _⟩ | h)
    · exact Bool.noConfusion h1
    · exact h
  · exact Or.inr

/-- Claim C7: toggle round-trip: for a node none of whose own id, ancestor
ids or descendant ids are selected, checking and then unchecking the node
returns the original canonical set, in both modes. -/
theorem c7_theorem : ∀ (data : List TreeNode) (s : Finset String) (mode : Bool)
    (node : TreeNode),
    node.id ∉ s →
    (∀ d ∈ getAllDescendantIds node, d ∉ s) →
    (∀ a, strictAncestor data a node.id → a ∉ s) →
    handleToggleSelected node false (handleToggleSelected node true s mode) mode = s := by
  intro data s mode node hn hd _
  cases mode with
  | true =>
    rw [toggle_check_tlo, toggle_uncheck_tlo]
    ext x
    simp only [Finset.mem_erase, Finset.mem_sdiff, Finset.mem_insert, List.mem_toFinset]
    constructor
    · rintro ⟨hne, ⟨h1 | h1, _⟩⟩
      · exact absurd h1 hne
      · exact h1
    · intro hx
      exact ⟨fun he => hn (he ▸ hx), Or.inr hx, fun hdx => hd x hdx hx⟩
  | false =>
    rw [toggle_check_cascade, toggle_uncheck_cascade]
    ext x
    simp only [Finset.mem_sdiff, Finset.mem_erase, Finset.mem_union, Finset.mem_insert,
      List.mem_toFinset]
    constructor
    · rintro ⟨⟨hne, (h1 | h1) | h1⟩, h2⟩
      · exact absurd h1 hne
      · exact h1
      · exact absurd h1 h2
    · intro hx
      exact ⟨⟨fun he => hn (he ▸ hx), Or.inl (Or.inr hx)⟩, fun hdx => hd x hdx hx⟩

/-- Claim C7, witness: round trip for citrus from the empty selection, in
both modes, over the fruits tree. -/
theorem c7_witness :
    handleToggleSelected citrusNode false
        (handleToggleSelected citrusNode true (∅ : Finset String) false) false
      = (∅ : Finset String)
    ∧ handleToggleSelected citrusNode false
        (handleToggleSelected citrusNode true (∅ : Finset String) true) true
      = (∅ : Finset String) :=
  ⟨c7_theorem fruitsTree ∅ false citrusNode (by simp) (by simp) (fun a _ => by simp),
    c7_theorem fruitsTree ∅ true citrusNode (by simp) (by simp) (fun a _ => by simp)⟩

/-- Claim C8: an id absent from the tree is passed through: normalizing
the singleton ghost list yields the singleton ghost set in both modes, and
in general a ghost id present in the raw list is a member of the output of
both modes, never discarded. -/
theorem c8_theorem : ∀ (data : List TreeNode) (g : String),
    g ∉ (subnodesL data).map TreeNode.id →
    (getSelectedIdsFromData data [g] true = {g}
      ∧ getSelectedIdsFromData data [g] false = {g})
    ∧ ∀ (R : List String), g ∈ R →
        g ∈ getSelectedIdsFromData data R true ∧ g ∈ getSelectedIdsFromData data R false := by
  intro data g hg
  have hpath : ancestorPathOf data g = [] := ancestorPathOf_of_ghost data hg
  have hmapnone : buildNodesMap data g = none := buildNodesMap_none hg
  refine ⟨⟨?_, ?_⟩, ?_⟩
  · ext x
    rw [mem_getSelectedIdsFromData_tlo]
    simp only [List.mem_singleton, Finset.mem_singleton]
    constructor
    · rintro ⟨h1, _⟩
      exact h1
    · rintro rfl
      exact ⟨rfl, by rw [hpath]; simp⟩
  · ext x
    rw [mem_getSelectedIdsFromData_cascade]
    simp only [List.mem_singleton, Finset.mem_singleton]
    constructor
    · rintro ⟨i, hi, hcase⟩
      subst hi
      rcases hcase with h | ⟨v, hv, _⟩
      · exact h
      · rw [hmapnone] at hv
        exact Option.noConfusion hv
    · intro hx
      exact ⟨g, rfl, Or.inl hx⟩
  · intro R hgR
    constructor
    · rw [mem_getSelectedIdsFromData_tlo]
      exact ⟨hgR, by rw [hpath]; simp⟩
    · rw [mem_getSelectedIdsFromData_cascade]
      exact ⟨g, hgR, Or.inl rfl⟩

/-- Claim C8, witness: ghost is not an id of the fruits tree and is passed
through by both normalization modes. -/
theorem c8_witness :
    (getSelectedIdsFromData fruitsTree ["ghost"] true = {"ghost"}
      ∧ getSelectedIdsFromData fruitsTree ["ghost"] false = {"ghost"})
    ∧ ∀ (R : List String), ("ghost") ∈ R →
        ("ghost") ∈ getSelectedIdsFromData fruitsTree R true
          ∧ ("ghost") ∈ getSelectedIdsFromData fruitsTree R false :=
  c8_theorem fruitsTree ("ghost") (by decide)

/-- Claim C9: tri-state evaluation: the display state is CHECKED exactly
when the id is a member; otherwise INDETERMINATE exactly when the
ancestorSelected flag is set or some strict descendant is selected with no
intervening selected node on the path; otherwise UNCHECKED.  With
selection apple over the fruits tree, fruits is INDETERMINATE and citrus
is UNCHECKED. -/
theorem c9_theorem :
    (∀ (n : TreeNode) (s : Finset String) (anc : Bool),
      (checkedState n s anc = CheckState.checked ↔ n.id ∈ s)
      ∧ (checkedState n s anc = CheckState.indeterminate
          ↔ (n.id ∉ s ∧ (anc = true ∨ unshadowedSelectedDescendant n s)))
      ∧ (checkedState n s anc = CheckState.unchecked
          ↔ (n.id ∉ s ∧ anc = false ∧ ¬ unshadowedSelectedDescendant n s)))
    ∧ checkedState fruitsNode {"apple"} false = CheckState.indeterminate
    ∧ checkedState citrusNode {"apple"} false = CheckState.unchecked := by
  refine ⟨?_, by decide, by decide⟩
  intro n s anc
  by_cases hm : n.id ∈ s
  · rw [checkedState, if_pos hm]
    refine ⟨⟨fun _ => hm, fun _ => rfl⟩, ?_, ?_⟩
    · constructor
      · intro h
        exact CheckState.noConfusion h
      · rintro ⟨hns, _⟩
        exact absurd hm hns
    · constructor
      · intro h
        exact CheckState.noConfusion h
      · rintro ⟨hns, _⟩
        exact absurd hm hns
  · rw [checkedState, if_neg hm]
    cases hb : (hasSelectedDescendant n s false || anc) with
    | true =>
      rw [if_pos (show (true : Bool) = true from rfl)]
      have hor : anc = true ∨ unshadowedSelectedDescendant n s := by
        cases h1 : hasSelectedDescendant n s false with
        | true => exact Or.inr ((hasSelectedDescendant_false_iff s n).mp h1)
        | false =>
          cases h2 : anc with
          | true => exact Or.inl rfl
          | false =>
            rw [h1, h2] at hb
            exact Bool.noConfusion hb
      refine ⟨?_, ?_, ?_⟩
      · constructor
        · intro h
          exact CheckState.noConfusion h
        · intro h
          exact absurd h hm
      · exact ⟨fun _ => ⟨hm, hor⟩, fun _ => rfl⟩
      · constructor
        · intro h
          exact CheckState.noConfusion h
        · rintro ⟨_, hanc, hnun⟩
          rcases hor with h1 | h1
          · rw [hanc] at h1
            exact Bool.noConfusion h1
          · exact absurd h1 hnun
    | false =>
      rw [if_neg Bool.false_ne_true]
      have h1 : hasSelectedDescendant n s false = false := by
        cases h1 : hasSelectedDescendant n s false with
        | false => rfl
        | true =>
          rw [h1] at hb
          simp at hb
      have h2 : anc = false := by
        cases h2 : anc with
        | false => rfl
        | true =>
          rw [h2] at hb
          simp at hb
      have hnun : ¬ unshadowedSelectedDescendant n s :=
        (hasSelectedDescendant_false_iff_not s n).mp h1
      refine ⟨?_, ?_, ?_⟩
      · constructor
        · intro h
          exact CheckState.noConfusion h
        · intro h
          exact absurd h hm
      · constructor
        · intro h
          exact CheckState.noConfusion h
        · rintro ⟨_, hx | hx⟩
          · rw [h2] at hx
            exact Bool.noConfusion hx
          · exact absurd hx hnun
      · exact ⟨fun _ => ⟨hm, h2, hnun⟩, fun _ => rfl⟩

/-- Claim C10: the CASCADE unchecking toggle removes exactly the node id
and its descendant ids and keeps every other member, including a selected
strict ancestor; consequently, when a strict ancestor of the node is
selected, the returned set no longer satisfies the CASCADE closure
invariant. -/
theorem c10_theorem :
    (∀ (s : Finset String) (node : TreeNode),
      handleToggleSelected node false s false
        = s \ insert node.id (getAllDescendantIds node).toFinset)
    ∧ (∀ (data : List TreeNode) (s : Finset String) (m n : TreeNode),
        uniqueIds data → m ∈ subnodesL data → n ∈ subnodesL m.children → m.id ∈ s →
        ¬ cascadeClosed data (handleToggleSelected n false s false)) := by
  constructor
  · intro s node
    rw [toggle_uncheck_cascade]
    ext x
    simp only [Finset.mem_sdiff, Finset.mem_erase, Finset.mem_insert, List.mem_toFinset]
    tauto
  · intro data s m n hu hm hn hms hclosed
    have hmap_nodup := nodup_subnodes_of_forest hu hm
    have hnid : n.id ∈ getAllDescendantIds m := by
      rw [getAllDescendantIds_eq_map]
      exact List.mem_map_of_mem _ hn
    have hmn : m.id ≠ n.id := by
      intro he
      exact id_not_mem_descIds hmap_nodup (he ▸ hnid)
    have hmdesc : m.id ∉ getAllDescendantIds n := by
      intro hin
      apply id_not_mem_descIds hmap_nodup
      rw [getAllDescendantIds_eq_map m]
      exact descIds_subset_forest hn m.id hin
    have hmem : m.id ∈ handleToggleSelected n false s false := by
      rw [toggle_uncheck_cascade, Finset.mem_sdiff, Finset.mem_erase]
      exact ⟨⟨hmn, hms⟩, fun hc => hmdesc (List.mem_toFinset.mp hc)⟩
    have hnotmem : n.id ∉ handleToggleSelected n false s false := by
      rw [toggle_uncheck_cascade, Finset.mem_sdiff, Finset.mem_erase]
      rintro ⟨⟨hne, _⟩, _⟩
      exact hne rfl
    exact hnotmem (hclosed m hm hmem n.id hnid)

/-- Claim C10, witness: unchecking orange from the closed set containing
citrus, orange and lemon leaves citrus selected and breaks the closure
invariant of the fruits tree. -/
theorem c10_witness :
    ¬ cascadeClosed fruitsTree
        (handleToggleSelected orangeNode false
          (insert ("citrus") (insert ("orange") (insert ("lemon") (∅ : Finset String))))
          false) :=
  c10_theorem.2 fruitsTree _ citrusNode orangeNode (by unfold uniqueIds; decide)
    (by decide) (by decide) (by decide)

/-- Claim C3: with unique ids, TOP_LEVEL_ONLY normalization yields an
antichain: no two distinct members stand in the ancestor/descendant
relation; and a raw candidate is dropped exactly when some other
raw-selected id is a strict ancestor of it. -/
theorem c3_theorem : ∀ (data : List TreeNode) (R : List String), uniqueIds data →
    (∀ a ∈ getSelectedIdsFromData data R true, ∀ b ∈ getSelectedIdsFromData data R true,
        a ≠ b → ¬ strictAncestor data a b)
      ∧ ∀ i ∈ R, (i ∉ getSelectedIdsFromData data R true
            ↔ ∃ a ∈ R, a ≠ i ∧ strictAncestor data a i) := by
  intro data R hu
  constructor
  · intro a ha b hb _ hanc
    rcases (mem_getSelectedIdsFromData_tlo data R b).mp hb with ⟨_, hall⟩
    have haR : a ∈ R := ((mem_getSelectedIdsFromData_tlo data R a).mp ha).1
    exact hall a ((mem_ancestorPathOf_iff hu).mpr hanc) haR
  · intro i hiR
    rw [mem_getSelectedIdsFromData_tlo]
    constructor
    · intro hnot
      by_contra hcon
      push_neg at hcon
      apply hnot
      refine ⟨hiR, fun a ha haR => ?_⟩
      have hanc := (mem_ancestorPathOf_iff hu).mp ha
      have hne : a ≠ i := fun he => strictAncestor_irrefl hu (he ▸ hanc)
      exact hcon a haR hne hanc
    · rintro ⟨a, haR, _, hanc⟩ ⟨_, hall⟩
      exact hall a ((mem_ancestorPathOf_iff hu).mpr hanc) haR

/-- Claim C3, witness: over the fruits tree with raw list citrus and
orange, the normalized set is an antichain and orange is dropped because
its strict ancestor citrus is raw-selected. -/
theorem c3_witness :
    (∀ a ∈ getSelectedIdsFromData fruitsTree ["citrus", "orange"] true,
      ∀ b ∈ getSelectedIdsFromData fruitsTree ["citrus", "orange"] true,
        a ≠ b → ¬ strictAncestor fruitsTree a b)
      ∧ ∀ i ∈ (["citrus", "orange"] : List String),
          (i ∉ getSelectedIdsFromData fruitsTree ["citrus", "orange"] true
            ↔ ∃ a ∈ (["citrus", "orange"] : List String),
                a ≠ i ∧ strictAncestor fruitsTree a i) :=
  c3_theorem fruitsTree ["citrus", "orange"] (by unfold uniqueIds; decide)

/-- Claim C4: with unique ids, CASCADE normalization is closed under
descent: every member id whose node is in the tree has all of that node's
descendant ids in the set as well. -/
theorem c4_theorem : ∀ (data : List TreeNode) (R : List String), uniqueIds data →
    ∀ x ∈ getSelectedIdsFromData data R false,
    ∀ m ∈ subnodesL data, m.id = x →
    ∀ d ∈ getAllDescendantIds m, d ∈ getSelectedIdsFromData data R false := by
  intro data R hu x hx m hm hmx d hd
  rcases (mem_getSelectedIdsFromData_cascade data R x).mp hx with ⟨i, hiR, hcase⟩
  rcases hcase with heq | ⟨v, hv, hxv⟩
  · subst heq
    have hmap : buildNodesMap data x = some m := by
      rw [← hmx]
      exact buildNodesMap_unique hu hm
    exact (mem_getSelectedIdsFromData_cascade data R d).mpr ⟨x, hiR, Or.inr ⟨m, hmap, hd⟩⟩
  · have hvmem : v ∈ subnodesL data := (buildNodesMap_some hv).1
    rcases descendant_node_exists hxv with ⟨w, hw, hwx, hsub⟩
    have hwdata : w ∈ subnodesL data := mem_forest_of_below hvmem hw
    have hwm : w = m := List.inj_on_of_nodup_map hu hwdata hm (by rw [hwx, hmx])
    have hdv : d ∈ getAllDescendantIds v := hsub d (by rw [hwm]; exact hd)
    exact (mem_getSelectedIdsFromData_cascade data R d).mpr ⟨i, hiR, Or.inr ⟨v, hv, hdv⟩⟩

/-- Claim C4, witness: citrus is a member of the cascade normalization of
the raw list citrus over the fruits tree, and its descendant orange is a
member as well, obtained by the closure theorem. -/
theorem c4_witness :
    ("orange") ∈ getSelectedIdsFromData fruitsTree ["citrus"] false :=
  c4_theorem fruitsTree ["citrus"] (by unfold uniqueIds; decide) ("citrus")
    (by
      rw [mem_getSelectedIdsFromData_cascade]
      exact ⟨"citrus", by decide, Or.inl rfl⟩)
    citrusNode (by decide) rfl ("orange") (by decide)

/-- Claim C6: with unique ids, normalization is idempotent in both modes:
feeding the canonical output back in as the raw list yields the same set. -/
theorem c6_theorem : ∀ (data : List TreeNode) (R : List String) (mode : Bool),
    uniqueIds data →
    getSelectedIdsFromData data (getSelectedIdsFromData data R mode).toList mode
      = getSelectedIdsFromData data R mode := by
  intro data R mode hu
  cases mode with
  | true =>
    ext x
    rw [mem_getSelectedIdsFromData_tlo data (getSelectedIdsFromData data R true).toList x]
    constructor
    · rintro ⟨h1, _⟩
      exact Finset.mem_toList.mp h1
    · intro hx
      refine ⟨Finset.mem_toList.mpr hx, fun a ha haS => ?_⟩
      have hxS := (mem_getSelectedIdsFromData_tlo data R x).mp hx
      have haS2 := (mem_getSelectedIdsFromData_tlo data R a).mp (Finset.mem_toList.mp haS)
      exact hxS.2 a ha haS2.1
  | false =>
    ext x
    rw [mem_getSelectedIdsFromData_cascade data
      (getSelectedIdsFromData data R false).toList x]
    constructor
    · rintro ⟨i, hi, hcase⟩
      have hiS : i ∈ getSelectedIdsFromData data R false := Finset.mem_toList.mp hi
      rcases hcase with heq | ⟨v, hv, hxv⟩
      · rw [heq]
        exact hiS
      · rcases (mem_getSelectedIdsFromData_cascade data R i).mp hiS with ⟨j, hj, hc2⟩
        rcases hc2 with heq2 | ⟨u, hu2, hiu⟩
        · subst heq2
          exact (mem_getSelectedIdsFromData_cascade data R x).mpr
            ⟨i, hj, Or.inr ⟨v, hv, hxv⟩⟩
        · have humem : u ∈ subnodesL data := (buildNodesMap_some hu2).1
          rcases descendant_node_exists hiu with ⟨w, hw, hwi, hsub⟩
          have hwdata : w ∈ subnodesL data := mem_forest_of_below humem hw
          have hmapw : buildNodesMap data i = some w := by
            rw [← hwi]
            exact buildNodesMap_unique hu hwdata
          have hvw : v = w := by
            rw [hmapw] at hv
            exact Option.some_inj.mp hv.symm
          have hxw : x ∈ getAllDescendantIds w := by
            rw [← hvw]
            exact hxv
          have hxu : x ∈ getAllDescendantIds u := hsub x hxw
          exact (mem_getSelectedIdsFromData_cascade data R x).mpr
            ⟨j, hj, Or.inr ⟨u, hu2, hxu⟩⟩
    · intro hx
      exact ⟨x, Finset.mem_toList.mpr hx, Or.inl rfl⟩

/-- Claim C6, witness: idempotence at the fruits tree with raw list citrus
and orange, in both modes. -/
theorem c6_witness :
    getSelectedIdsFromData fruitsTree
        (getSelectedIdsFromData fruitsTree ["citrus", "orange"] true).toList true
      = getSelectedIdsFromData fruitsTree ["citrus", "orange"] true
    ∧ getSelectedIdsFromData fruitsTree
        (getSelectedIdsFromData fruitsTree ["citrus", "orange"] false).toList false
      = getSelectedIdsFromData fruitsTree ["citrus", "orange"] false :=
  ⟨c6_theorem fruitsTree ["citrus", "orange"] true (by unfold uniqueIds; decide),
    c6_theorem fruitsTree ["citrus", "orange"] false (by unfold uniqueIds; decide)⟩
